import Mathlib

/-!
Verification development for the `Photon_Sphere_3D.py` core: the warp-depth
geometry function, the fixed-step RK4 photon-geodesic integrator with its
capture/escape/exhaustion stopping logic, the planar-to-3D ray projection,
and the static trajectory catalog.  Python floats are embedded as real
numbers; numpy arrays of samples are embedded as Lean lists indexed by the
integration grid.
-/

namespace PhotonSphere

noncomputable section
open Classical

/-- Gravitational mass in geometric units (`M = 1.0` in the source config). -/
def M : ℝ := 1.0

/-- Schwarzschild radius, `rs = 2.0 * M` in the source. -/
def rs : ℝ := 2.0 * M

/-- Plot extent, `PLOT_LIMIT = 15.0`; the default `r_max` of the warp. -/
def PLOT_LIMIT : ℝ := 15.0

/-- Z-displacement of the warped grid, from `spacetime_warp_z(r, r_max)`:
a clamp to `-15` at and inside the horizon, otherwise
`-6.0 * sqrt(rs / r) * (1 - r/r_max)**0.3`. -/
def spacetime_warp_z (r : ℝ) (r_max : ℝ := PLOT_LIMIT) : ℝ :=
  if r ≤ rs then -15
  else -6.0 * Real.sqrt (rs / r) * (1 - r / r_max) ^ (0.3 : ℝ)

/-- One classical fourth-order Runge-Kutta step, from `rk4_step(f, phi, y, h)`
in the source; the numpy state vector `y = (u, u')` is a pair of reals. -/
def rk4_step (f : ℝ → ℝ × ℝ → ℝ × ℝ) (phi : ℝ) (y : ℝ × ℝ) (h : ℝ) : ℝ × ℝ :=
  let k1 := f phi y
  let k2 := f (phi + 0.5 * h) (y + (0.5 * h) • k1)
  let k3 := f (phi + 0.5 * h) (y + (0.5 * h) • k2)
  let k4 := f (phi + h) (y + h • k3)
  y + (h / 6.0) • (k1 + (2 : ℝ) • k2 + (2 : ℝ) • k3 + k4)

/-- Right-hand side of the photon-orbit ODE, from `geodesic_rhs(phi, y)`:
`u'' = 3 M u^2 - u`. -/
def geodesic_rhs (_phi : ℝ) (y : ℝ × ℝ) : ℝ × ℝ :=
  (y.2, 3.0 * M * y.1 ^ 2 - y.1)

/-- Default starting radius of `integrate_ray_3d` (`r_start=15.0`). -/
def r_start : ℝ := 15.0

/-- Default grid-point count of `integrate_ray_3d` (`Nphi=2000`). -/
def Nphi : ℕ := 2000

/-- Initial inverse radius `u0 = 1.0 / r_start`. -/
def u0 : ℝ := 1.0 / r_start

/-- Radicand of the initial slope, `val = 1.0/b**2 - u0**2 + 2*M*u0**3`. -/
def initVal (b : ℝ) : ℝ := 1.0 / b ^ 2 - u0 ^ 2 + 2 * M * u0 ^ 3

/-- Initial slope `up0`: the source clamps a negative radicand to zero
(`if val < 0: val = 0`) and then takes the square root. -/
def up0 (b : ℝ) : ℝ := Real.sqrt (if initVal b < 0 then 0 else initVal b)

/-- Angular integration span, `phi_span = 6 * np.pi`. -/
def phi_span : ℝ := 6 * Real.pi

/-- The azimuth grid `np.linspace(0, phi_span, Nphi)`:
`phi_grid i = phi_span * i / (Nphi - 1)`. -/
def phi_grid (i : ℕ) : ℝ := phi_span * i / ((Nphi : ℝ) - 1)

/-- Fixed step size, `dphi = phi_grid[1] - phi_grid[0]`. -/
def dphi : ℝ := phi_grid 1 - phi_grid 0

/-- The full (unstopped) sequence of integrator states: `y[0] = [u0, up0]`
and `y[i+1] = rk4_step(geodesic_rhs, phi_grid[i], y[i], dphi)`. -/
def traj (b : ℝ) : ℕ → ℝ × ℝ
  | 0 => (u0, up0 b)
  | n + 1 => rk4_step geodesic_rhs (phi_grid n) (traj b n) dphi

/-- Capture test of the stopping loop: `u_curr > 1.0/rs`. -/
def capture_cond (y : ℝ × ℝ) : Prop := 1.0 / rs < y.1

/-- Escape test of the stopping loop: `u_curr < 1.0/r_start and y[i+1,1] < 0`. -/
def escape_cond (y : ℝ × ℝ) : Prop := y.1 < 1.0 / r_start ∧ y.2 < 0

/-- Either terminal condition holds at sample `j` of the run for `b`. -/
def term_cond (b : ℝ) (j : ℕ) : Prop :=
  capture_cond (traj b j) ∨ escape_cond (traj b j)

/-- The stopping loop of `integrate_ray_3d`: iterating `i` over
`range(Nphi-1)`, the freshly produced sample `y[i+1]` is tested (capture
first, then escape); the first hit sets `stop_i = i + 2` and breaks, and
falling through the whole loop leaves `stop_i = Nphi`. -/
def stopAux (b : ℝ) (i : ℕ) : ℕ :=
  if _h : i < Nphi - 1 then
    if capture_cond (traj b (i + 1)) then i + 2
    else if escape_cond (traj b (i + 1)) then i + 2
    else stopAux b (i + 1)
  else Nphi
termination_by Nphi - 1 - i
decreasing_by omega

/-- `stop_i` as left by the loop (initial value `Nphi`, loop from `i = 0`). -/
def stop_i (b : ℝ) : ℕ := stopAux b 0

/-- Full `integrate_ray_3d(b, theta_angle, phi_angle)`: truncate the state
array at `stop_i`, clamp near-zero `u` (`u[u < 1e-6] = 1e-6`), invert to
`r = 1.0 / u`, build the planar orbit `(r cos phi, r sin phi)`, tilt it
about the Y axis by `theta_angle` and rotate about the Z axis by
`phi_angle`; returns the arrays `(x, y, z, r)`. -/
def integrate_ray_3d (b : ℝ) (theta_angle : ℝ := 0) (phi_angle : ℝ := 0) :
    List ℝ × List ℝ × List ℝ × List ℝ :=
  let idx := List.range (stop_i b)
  let u := idx.map fun j => (traj b j).1
  let uc := u.map fun v => if v < 1e-6 then 1e-6 else v
  let r := uc.map fun v => 1.0 / v
  let phi_vals := idx.map phi_grid
  let x_orb := (r.zip phi_vals).map fun p => p.1 * Real.cos p.2
  let y_orb := (r.zip phi_vals).map fun p => p.1 * Real.sin p.2
  let x1 := x_orb.map fun v => v * Real.cos theta_angle
  let y1 := y_orb
  let z1 := x_orb.map fun v => v * Real.sin theta_angle
  let x := (x1.zip y1).map fun p => p.1 * Real.cos phi_angle - p.2 * Real.sin phi_angle
  let y := (x1.zip y1).map fun p => p.1 * Real.sin phi_angle + p.2 * Real.cos phi_angle
  let z := z1
  (x, y, z, r)

/-- The two-rotation projection applied to one planar point `(x_orb, y_orb)`:
tilt about Y by `theta_angle` (lines `x1 = x_orb*cos θ`, `y1 = y_orb`,
`z1 = x_orb*sin θ`), then rotate about Z by `phi_angle`. -/
def project_point (theta_angle phi_angle : ℝ) (p : ℝ × ℝ) : ℝ × ℝ × ℝ :=
  let x1 := p.1 * Real.cos theta_angle
  let y1 := p.2
  let z1 := p.1 * Real.sin theta_angle
  (x1 * Real.cos phi_angle - y1 * Real.sin phi_angle,
   x1 * Real.sin phi_angle + y1 * Real.cos phi_angle,
   z1)

/-- The projection applied to a whole sequence of planar samples. -/
def toCartesian3D (theta_angle phi_angle : ℝ) (ps : List (ℝ × ℝ)) :
    List (ℝ × ℝ × ℝ) :=
  ps.map (project_point theta_angle phi_angle)

/-- One entry of the source's `ray_configs` catalog of dicts. -/
structure RayConfig where
  b : ℝ
  theta : ℝ
  phi : ℝ
  color : String
  type : String

/-- The fixed `ray_configs` literal from the source. -/
def ray_configs : List RayConfig :=
  [⟨7.0, 0, 0, "#FFD700", "escape"⟩,
   ⟨6.0, Real.pi / 6, Real.pi / 4, "#FFA500", "escape"⟩,
   ⟨5.5, -(Real.pi / 6), Real.pi / 2, "#FFDB58", "escape"⟩,
   ⟨5.0, Real.pi / 8, -(Real.pi / 6), "#FF1493", "capture"⟩,
   ⟨4.0, -(Real.pi / 8), 3 * Real.pi / 4, "#FF69B4", "capture"⟩,
   ⟨3.0, Real.pi / 12, Real.pi, "#FF6B9D", "capture"⟩]

/-- The generation loop `for config in ray_configs: integrate_ray_3d(...)`,
run on an arbitrary catalog: every entry is handed to the integrator. -/
def generateRays (cfgs : List RayConfig) :
    List (List ℝ × List ℝ × List ℝ × List ℝ) :=
  cfgs.map fun c => integrate_ray_3d c.b c.theta c.phi

/-- Radius sample `j` of the run for `b`, after the near-zero clamp. -/
def rAt (b : ℝ) (j : ℕ) : ℝ :=
  1.0 / (if (traj b j).1 < 1e-6 then 1e-6 else (traj b j).1)

/-- Planar orbit X coordinate of sample `j`. -/
def xOrbAt (b : ℝ) (j : ℕ) : ℝ := rAt b j * Real.cos (phi_grid j)

/-- Planar orbit Y coordinate of sample `j`. -/
def yOrbAt (b : ℝ) (j : ℕ) : ℝ := rAt b j * Real.sin (phi_grid j)

/-- Final X coordinate of sample `j` after both rotations. -/
def xAt (b theta_angle phi_angle : ℝ) (j : ℕ) : ℝ :=
  xOrbAt b j * Real.cos theta_angle * Real.cos phi_angle -
    yOrbAt b j * Real.sin phi_angle

/-- Final Y coordinate of sample `j` after both rotations. -/
def yAt (b theta_angle phi_angle : ℝ) (j : ℕ) : ℝ :=
  xOrbAt b j * Real.cos theta_angle * Real.sin phi_angle +
    yOrbAt b j * Real.cos phi_angle

/-- Final Z coordinate of sample `j` after the tilt. -/
def zAt (b theta_angle : ℝ) (j : ℕ) : ℝ := xOrbAt b j * Real.sin theta_angle

/-! ## Basic lemmas -/

theorem rs_eq : rs = 2 := by norm_num [rs, M]

theorem u0_eq : u0 = 1 / 15 := by norm_num [u0, r_start]

theorem Nphi_eq : Nphi = 2000 := rfl

theorem PLOT_LIMIT_eq : PLOT_LIMIT = 15 := by norm_num [PLOT_LIMIT]

/-! ## Claim theorems -/

/-- C3: for every `b > 0` the initial state is `u0 = 1/r_start` together with
`up0 = sqrt (max 0 (1/b^2 - u0^2 + 2 M u0^3))`; the negative radicand is
clamped to zero, and the initial slope is a non-negative real number. -/
theorem C3_initial_slope_clamped (b : ℝ) (_hb : 0 < b) :
    (traj b 0).1 = 1.0 / r_start ∧
    up0 b = Real.sqrt (max 0 (1.0 / b ^ 2 - u0 ^ 2 + 2 * M * u0 ^ 3)) ∧
    0 ≤ up0 b := by
  refine ⟨rfl, ?_, Real.sqrt_nonneg _⟩
  unfold up0 initVal
  congr 1
  rcases lt_or_le (1.0 / b ^ 2 - u0 ^ 2 + 2 * M * u0 ^ 3) 0 with h | h
  · rw [if_pos h, max_eq_left h.le]
  · rw [if_neg (not_lt.mpr h), max_eq_right h]

theorem C3_witness :
    (traj 3 0).1 = 1.0 / r_start ∧
    up0 3 = Real.sqrt (max 0 (1.0 / 3 ^ 2 - u0 ^ 2 + 2 * M * u0 ^ 3)) ∧
    0 ≤ up0 3 :=
  C3_initial_slope_clamped 3 (by norm_num)

/-- C4: every step of the run advances the state by one classical RK4 step of
`u'' = 3 M u^2 - u`, with the same fixed step `dphi` for all steps, where
`dphi` is the spacing of the uniform `Nphi`-point grid over the span `6 π`. -/
theorem C4_rk4_fixed_step (b : ℝ) (n : ℕ) :
    traj b (n + 1) = rk4_step geodesic_rhs (phi_grid n) (traj b n) dphi ∧
    dphi = 6 * Real.pi / ((Nphi : ℝ) - 1) ∧
    (∀ i : ℕ, phi_grid (i + 1) - phi_grid i = dphi) ∧
    (∀ phi y, geodesic_rhs phi y = (y.2, 3.0 * M * y.1 ^ 2 - y.1)) ∧
    (∀ f phi y h, rk4_step f phi y h =
      y + (h / 6.0) • (f phi y
        + (2 : ℝ) • f (phi + 0.5 * h) (y + (0.5 * h) • f phi y)
        + (2 : ℝ) • f (phi + 0.5 * h)
            (y + (0.5 * h) • f (phi + 0.5 * h) (y + (0.5 * h) • f phi y))
        + f (phi + h)
            (y + h • f (phi + 0.5 * h)
              (y + (0.5 * h) • f (phi + 0.5 * h) (y + (0.5 * h) • f phi y))))) := by
  have hspacing : ∀ i : ℕ, phi_grid (i + 1) - phi_grid i = dphi := by
    intro i
    unfold dphi phi_grid
    push_cast
    ring
  refine ⟨rfl, ?_, hspacing, fun _ _ => rfl, fun _ _ _ _ => rfl⟩
  unfold dphi phi_grid phi_span
  norm_num [Nphi]

theorem C4_witness :
    traj 2 (0 + 1) = rk4_step geodesic_rhs (phi_grid 0) (traj 2 0) dphi ∧
    dphi = 6 * Real.pi / ((Nphi : ℝ) - 1) ∧
    (∀ i : ℕ, phi_grid (i + 1) - phi_grid i = dphi) ∧
    (∀ phi y, geodesic_rhs phi y = (y.2, 3.0 * M * y.1 ^ 2 - y.1)) ∧
    (∀ f phi y h, rk4_step f phi y h =
      y + (h / 6.0) • (f phi y
        + (2 : ℝ) • f (phi + 0.5 * h) (y + (0.5 * h) • f phi y)
        + (2 : ℝ) • f (phi + 0.5 * h)
            (y + (0.5 * h) • f (phi + 0.5 * h) (y + (0.5 * h) • f phi y))
        + f (phi + h)
            (y + h • f (phi + 0.5 * h)
              (y + (0.5 * h) • f (phi + 0.5 * h) (y + (0.5 * h) • f phi y))))) :=
  C4_rk4_fixed_step 2 0

/-- C6: the two-rotation composition (tilt about Y, then rotation about Z) is
distance preserving: the Euclidean norm of the projected 3D point equals the
planar radius of the pre-rotation point, for all angles and samples. -/
theorem C6_projection_isometry (theta_angle phi_angle : ℝ) (p : ℝ × ℝ) :
    Real.sqrt ((project_point theta_angle phi_angle p).1 ^ 2 +
        (project_point theta_angle phi_angle p).2.1 ^ 2 +
        (project_point theta_angle phi_angle p).2.2 ^ 2) =
      Real.sqrt (p.1 ^ 2 + p.2 ^ 2) := by
  have hproj : project_point theta_angle phi_angle p =
      (p.1 * Real.cos theta_angle * Real.cos phi_angle -
         p.2 * Real.sin phi_angle,
       p.1 * Real.cos theta_angle * Real.sin phi_angle +
         p.2 * Real.cos phi_angle,
       p.1 * Real.sin theta_angle) := rfl
  rw [hproj]
  have ht := Real.sin_sq_add_cos_sq theta_angle
  have hp := Real.sin_sq_add_cos_sq phi_angle
  congr 1
  linear_combination (p.1 ^ 2 * Real.cos theta_angle ^ 2 + p.2 ^ 2) * hp +
    p.1 ^ 2 * ht

theorem C6_witness :
    Real.sqrt ((project_point 0.5 0.25 (3, 4)).1 ^ 2 +
        (project_point 0.5 0.25 (3, 4)).2.1 ^ 2 +
        (project_point 0.5 0.25 (3, 4)).2.2 ^ 2) =
      Real.sqrt ((3 : ℝ) ^ 2 + (4 : ℝ) ^ 2) :=
  C6_projection_isometry 0.5 0.25 (3, 4)

/-- C7: with both orientation angles zero the projection is the identity on the
orbital plane: every planar sample `(x, y)` is sent to `(x, y, 0)`. -/
theorem C7_zero_angles_identity (ps : List (ℝ × ℝ)) :
    toCartesian3D 0 0 ps = ps.map fun p => (p.1, p.2, (0 : ℝ)) := by
  unfold toCartesian3D
  have hfun : project_point 0 0 = fun p : ℝ × ℝ => (p.1, p.2, (0 : ℝ)) := by
    funext p
    simp [project_point]
  rw [hfun]

theorem C7_witness :
    toCartesian3D 0 0 [((1 : ℝ), (2 : ℝ))] = [((1 : ℝ), (2 : ℝ), (0 : ℝ))] := by
  have h := C7_zero_angles_identity [((1 : ℝ), (2 : ℝ))]
  simpa using h

/-- C9 (amended): the catalog is a fixed literal whose six entries all have a
positive impact parameter, and all six are handed to the integrator; no
validation of `b ≤ 0` happens anywhere. -/
theorem C9_catalog_positive :
    (∀ c ∈ ray_configs, 0 < c.b) ∧ (generateRays ray_configs).length = 6 := by
  constructor
  · intro c hc
    fin_cases hc <;> norm_num
  · simp [generateRays, ray_configs]

theorem C9_witness :
    0 < (RayConfig.mk 7.0 0 0 "#FFD700" "escape").b ∧
    (generateRays ray_configs).length = 6 :=
  ⟨C9_catalog_positive.1 _ (by simp [ray_configs]), C9_catalog_positive.2⟩

/-- C9 counterexample: a configuration with `b = -1 ≤ 0` is not rejected
anywhere; the generation loop passes it straight to the integrator. -/
theorem C9_cx_no_validation :
    generateRays [RayConfig.mk (-1) 0 0 "" "capture"] =
      [integrate_ray_3d (-1) 0 0] ∧ ((-1 : ℝ) ≤ 0) :=
  ⟨rfl, by norm_num⟩

/-- The warp formula on the open branch. -/
theorem spacetime_warp_z_of_gt {r : ℝ} (h : rs < r) (r_max : ℝ) :
    spacetime_warp_z r r_max =
      -6.0 * Real.sqrt (rs / r) * (1 - r / r_max) ^ (0.3 : ℝ) := by
  unfold spacetime_warp_z
  rw [if_neg (not_le.mpr h)]

/-- At `r = r_max` the warp value is zero. -/
theorem spacetime_warp_z_at_limit : spacetime_warp_z 15 PLOT_LIMIT = 0 := by
  rw [spacetime_warp_z_of_gt (by norm_num [rs, M])]
  rw [show (1 : ℝ) - 15 / PLOT_LIMIT = 0 by norm_num [PLOT_LIMIT]]
  rw [Real.zero_rpow (by norm_num)]
  ring

/-- Beyond `r_max` the warp value is strictly negative. -/
theorem spacetime_warp_z_beyond_limit : spacetime_warp_z 30 PLOT_LIMIT < 0 := by
  rw [spacetime_warp_z_of_gt (by norm_num [rs, M])]
  rw [show (1 : ℝ) - 30 / PLOT_LIMIT = -1 by norm_num [PLOT_LIMIT]]
  rw [Real.rpow_def_of_neg (by norm_num : (-1 : ℝ) < 0)]
  rw [show Real.log (-1) = 0 by
    rw [show (-1 : ℝ) = -(1 : ℝ) by norm_num, Real.log_neg_eq_log, Real.log_one]]
  rw [zero_mul, Real.exp_zero, one_mul]
  have hcos : 0 < Real.cos (0.3 * Real.pi) := by
    apply Real.cos_pos_of_mem_Ioo
    constructor
    · nlinarith [Real.pi_pos]
    · nlinarith [Real.pi_pos]
  have hsq : 0 < Real.sqrt (rs / 30) :=
    Real.sqrt_pos.mpr (by norm_num [rs, M])
  nlinarith

/-- C5 (amended): the warp depth returns the clamp constant `-15` for every
`r ≤ rs` (in particular at `r = 2.0 = rs` with `rMax = 15.0`), returns
`-6 sqrt(rs/r) (1 - r/rMax)^0.3` for every `r > rs`, and as a function of `r`
with the default `rMax = PLOT_LIMIT` it is continuous on `r > rs` and
monotonically non-decreasing on `rs < r ≤ rMax` (beyond `rMax` monotonicity
fails, see the counterexample). -/
theorem C5_warp_depth (r r_max : ℝ) :
    (r ≤ rs → spacetime_warp_z r r_max = -15) ∧
    (rs < r → spacetime_warp_z r r_max =
      -6.0 * Real.sqrt (rs / r) * (1 - r / r_max) ^ (0.3 : ℝ)) ∧
    spacetime_warp_z 2.0 PLOT_LIMIT = -15 ∧
    ContinuousOn (fun s => spacetime_warp_z s PLOT_LIMIT) (Set.Ioi rs) ∧
    MonotoneOn (fun s => spacetime_warp_z s PLOT_LIMIT)
      (Set.Ioc rs PLOT_LIMIT) := by
  refine ⟨?_, ?_, ?_, ?_, ?_⟩
  · intro h
    unfold spacetime_warp_z
    rw [if_pos h]
  · intro h
    exact spacetime_warp_z_of_gt h r_max
  · unfold spacetime_warp_z
    rw [if_pos (by norm_num [rs, M])]
  · -- continuity on the open branch
    have heq : Set.EqOn (fun s => spacetime_warp_z s PLOT_LIMIT)
        (fun s => -6.0 * Real.sqrt (rs / s) * (1 - s / PLOT_LIMIT) ^ (0.3 : ℝ))
        (Set.Ioi rs) := fun s hs => spacetime_warp_z_of_gt hs PLOT_LIMIT
    apply ContinuousOn.congr _ heq
    apply ContinuousOn.mul
    · apply ContinuousOn.mul continuousOn_const
      apply Real.continuous_sqrt.comp_continuousOn
      apply ContinuousOn.div continuousOn_const continuousOn_id
      intro x hx
      have : (0 : ℝ) < x := lt_trans (by norm_num [rs, M]) hx
      exact ne_of_gt this
    · apply (Real.continuous_rpow_const (by norm_num)).comp_continuousOn
      exact continuousOn_const.sub (continuousOn_id.div_const _)
  · -- monotonicity on (rs, PLOT_LIMIT]
    intro a ha c hc hac
    have ha1 : (2 : ℝ) < a := by
      have := ha.1; rwa [rs_eq] at this
    have ha2 : a ≤ 15 := by
      have := ha.2; rwa [PLOT_LIMIT_eq] at this
    have hc1 : (2 : ℝ) < c := by
      have := hc.1; rwa [rs_eq] at this
    have hc2 : c ≤ 15 := by
      have := hc.2; rwa [PLOT_LIMIT_eq] at this
    have ha0 : (0 : ℝ) < a := by linarith
    have hc0 : (0 : ℝ) < c := by linarith
    simp only
    rw [spacetime_warp_z_of_gt (by rw [rs_eq]; exact ha1),
      spacetime_warp_z_of_gt (by rw [rs_eq]; exact hc1)]
    have hsqrt : Real.sqrt (rs / c) ≤ Real.sqrt (rs / a) := by
      apply Real.sqrt_le_sqrt
      rw [rs_eq]
      apply div_le_div_of_nonneg_left (by norm_num) ha0 hac
    have hbase_c : (0 : ℝ) ≤ 1 - c / PLOT_LIMIT := by
      rw [PLOT_LIMIT_eq]
      have : c / 15 ≤ 1 := by
        rw [div_le_one (by norm_num)]; exact hc2
      linarith
    have hbase : 1 - c / PLOT_LIMIT ≤ 1 - a / PLOT_LIMIT := by
      rw [PLOT_LIMIT_eq]
      have : a / 15 ≤ c / 15 := (div_le_div_iff_of_pos_right (by norm_num)).mpr hac
      linarith
    have hrpow : (1 - c / PLOT_LIMIT) ^ (0.3 : ℝ) ≤
        (1 - a / PLOT_LIMIT) ^ (0.3 : ℝ) :=
      Real.rpow_le_rpow hbase_c hbase (by norm_num)
    have hsq_nonneg : (0 : ℝ) ≤ Real.sqrt (rs / a) := Real.sqrt_nonneg _
    have hrpow_nonneg : (0 : ℝ) ≤ (1 - c / PLOT_LIMIT) ^ (0.3 : ℝ) :=
      Real.rpow_nonneg hbase_c _
    have hprod : Real.sqrt (rs / c) * (1 - c / PLOT_LIMIT) ^ (0.3 : ℝ) ≤
        Real.sqrt (rs / a) * (1 - a / PLOT_LIMIT) ^ (0.3 : ℝ) :=
      mul_le_mul hsqrt hrpow hrpow_nonneg hsq_nonneg
    nlinarith [hprod]

theorem C5_witness :
    spacetime_warp_z 2.0 PLOT_LIMIT = -15 ∧
    spacetime_warp_z 3 PLOT_LIMIT ≤ spacetime_warp_z 10 PLOT_LIMIT := by
  constructor
  · exact (C5_warp_depth 0 0).2.2.1
  · apply (C5_warp_depth 0 0).2.2.2.2
    · constructor
      · rw [rs_eq]; norm_num
      · rw [PLOT_LIMIT_eq]; norm_num
    · constructor
      · rw [rs_eq]; norm_num
      · rw [PLOT_LIMIT_eq]; norm_num
    · norm_num

/-- C5 counterexample: as stated, monotone non-decrease for all `r > rs` is
false — at `r = 30 > rMax` the value drops strictly below the value at
`r = 15`, because the base `1 - r/rMax` turns negative beyond `rMax`. -/
theorem C5_cx_not_monotone :
    ¬ MonotoneOn (fun s => spacetime_warp_z s PLOT_LIMIT) (Set.Ioi rs) := by
  intro h
  have h15 : (15 : ℝ) ∈ Set.Ioi rs := by rw [Set.mem_Ioi, rs_eq]; norm_num
  have h30 : (30 : ℝ) ∈ Set.Ioi rs := by rw [Set.mem_Ioi, rs_eq]; norm_num
  have hle := h h15 h30 (by norm_num)
  simp only at hle
  rw [spacetime_warp_z_at_limit] at hle
  exact absurd hle (not_le.mpr spacetime_warp_z_beyond_limit)

/-- Unfolding equation of the stopping loop. -/
theorem stopAux_unfold (b : ℝ) (i : ℕ) :
    stopAux b i =
      if i < Nphi - 1 then
        (if capture_cond (traj b (i + 1)) then i + 2
         else if escape_cond (traj b (i + 1)) then i + 2
         else stopAux b (i + 1))
      else Nphi := by
  rw [stopAux]
  simp only [dite_eq_ite]

/-- The components of `integrate_ray_3d` are exactly the four truncated
per-sample arrays. -/
theorem integrate_components (b theta_angle phi_angle : ℝ) :
    integrate_ray_3d b theta_angle phi_angle =
      ((List.range (stop_i b)).map (xAt b theta_angle phi_angle),
       (List.range (stop_i b)).map (yAt b theta_angle phi_angle),
       (List.range (stop_i b)).map (zAt b theta_angle),
       (List.range (stop_i b)).map (rAt b)) := by
  unfold integrate_ray_3d
  simp only [List.map_map, List.zip_map', Prod.mk.injEq]
  refine ⟨?_, ?_, ?_, ?_⟩ <;>
  · apply List.map_congr_left
    intro j _
    simp [Function.comp, xAt, yAt, zAt, rAt, xOrbAt, yOrbAt]

/-- C10: the inverse radius of every sample is clamped up to `1e-6` before
inversion, so every radius of the returned sequence lies in `(0, 1e6]`, and
the four returned arrays all have length `stop_i`. -/
theorem C10_clamp_positive_radii (b theta_angle phi_angle : ℝ) :
    (∀ j : ℕ, 1e-6 ≤ (if (traj b j).1 < 1e-6 then 1e-6 else (traj b j).1)) ∧
    (∀ r ∈ (integrate_ray_3d b theta_angle phi_angle).2.2.2,
      0 < r ∧ r ≤ 1e6) ∧
    (integrate_ray_3d b theta_angle phi_angle).1.length = stop_i b ∧
    (integrate_ray_3d b theta_angle phi_angle).2.1.length = stop_i b ∧
    (integrate_ray_3d b theta_angle phi_angle).2.2.1.length = stop_i b ∧
    (integrate_ray_3d b theta_angle phi_angle).2.2.2.length = stop_i b := by
  have hclamp : ∀ j : ℕ,
      1e-6 ≤ (if (traj b j).1 < 1e-6 then 1e-6 else (traj b j).1) := by
    intro j
    split_ifs with h
    · exact le_refl _
    · exact le_of_not_lt h
  refine ⟨hclamp, ?_, ?_, ?_, ?_, ?_⟩
  · rw [integrate_components]
    intro r hr
    simp only [List.mem_map] at hr
    obtain ⟨j, _, rfl⟩ := hr
    unfold rAt
    have h1 := hclamp j
    have hpos : (0 : ℝ) <
        (if (traj b j).1 < 1e-6 then 1e-6 else (traj b j).1) :=
      lt_of_lt_of_le (by norm_num) h1
    constructor
    · exact div_pos (by norm_num) hpos
    · rw [div_le_iff₀ hpos]
      nlinarith [h1]
  all_goals rw [integrate_components]
  all_goals simp [List.length_map, List.length_range]

theorem C10_witness :
    (∀ j : ℕ, 1e-6 ≤ (if (traj 5 j).1 < 1e-6 then 1e-6 else (traj 5 j).1)) ∧
    (∀ r ∈ (integrate_ray_3d 5 0 0).2.2.2, 0 < r ∧ r ≤ 1e6) ∧
    (integrate_ray_3d 5 0 0).1.length = stop_i 5 ∧
    (integrate_ray_3d 5 0 0).2.1.length = stop_i 5 ∧
    (integrate_ray_3d 5 0 0).2.2.1.length = stop_i 5 ∧
    (integrate_ray_3d 5 0 0).2.2.2.length = stop_i 5 :=
  C10_clamp_positive_radii 5 0 0

/-- C8 evidence: the integrator returns exactly the bare 4-tuple of truncated
sample arrays for every input, with no extra classification or indeterminate
marker in the result; an exhausted run is therefore indistinguishable, by the
returned value's shape, from a capture or escape run. -/
theorem C8_no_indeterminate_marker (b theta_angle phi_angle : ℝ) :
    integrate_ray_3d b theta_angle phi_angle =
      ((List.range (stop_i b)).map (xAt b theta_angle phi_angle),
       (List.range (stop_i b)).map (yAt b theta_angle phi_angle),
       (List.range (stop_i b)).map (zAt b theta_angle),
       (List.range (stop_i b)).map (rAt b)) ∧
    (integrate_ray_3d b theta_angle phi_angle).2.2.2.length = stop_i b :=
  ⟨integrate_components b theta_angle phi_angle, by
    rw [integrate_components]
    simp [List.length_map, List.length_range]⟩

/-- Full characterization of the stopping loop, by downward induction. -/
theorem stopAux_char (b : ℝ) :
    ∀ m i, Nphi - 1 - i ≤ m →
      ((∀ j, i < j → j ≤ Nphi - 1 → ¬ term_cond b j) ∧ stopAux b i = Nphi) ∨
      (∃ j, i < j ∧ j ≤ Nphi - 1 ∧ term_cond b j ∧
        (∀ k, i < k → k < j → ¬ term_cond b k) ∧ stopAux b i = j + 1) := by
  intro m
  induction m with
  | zero =>
    intro i hi
    have hge : ¬ i < Nphi - 1 := by omega
    left
    refine ⟨fun j hj1 hj2 => absurd hj1 (by omega), ?_⟩
    rw [stopAux_unfold, if_neg hge]
  | succ m ih =>
    intro i hi
    by_cases hlt : i < Nphi - 1
    · by_cases hcap : capture_cond (traj b (i + 1))
      · right
        refine ⟨i + 1, by omega, by omega, Or.inl hcap,
          fun k hk1 hk2 => absurd hk1 (by omega), ?_⟩
        rw [stopAux_unfold, if_pos hlt, if_pos hcap]
      · by_cases hesc : escape_cond (traj b (i + 1))
        · right
          refine ⟨i + 1, by omega, by omega, Or.inr hesc,
            fun k hk1 hk2 => absurd hk1 (by omega), ?_⟩
          rw [stopAux_unfold, if_pos hlt, if_neg hcap, if_pos hesc]
        · have hnt : ¬ term_cond b (i + 1) := by
            rintro (h | h)
            exacts [hcap h, hesc h]
          have hrec : stopAux b i = stopAux b (i + 1) := by
            rw [stopAux_unfold, if_pos hlt, if_neg hcap, if_neg hesc]
          rcases ih (i + 1) (by omega) with ⟨hnone, heq⟩ |
            ⟨j, hj1, hj2, hterm, hmin, heq⟩
          · left
            refine ⟨?_, by rw [hrec]; exact heq⟩
            intro j hj1 hj2
            rcases Nat.lt_or_ge (i + 1) j with h2 | h2
            · exact hnone j h2 hj2
            · have hj : j = i + 1 := by omega
              rw [hj]; exact hnt
          · right
            refine ⟨j, by omega, hj2, hterm, ?_, by rw [hrec]; exact heq⟩
            intro k hk1 hk2
            rcases Nat.lt_or_ge (i + 1) k with h2 | h2
            · exact hmin k h2 hk2
            · have hk : k = i + 1 := by omega
              rw [hk]; exact hnt
    · left
      refine ⟨fun j hj1 hj2 => absurd hj1 (by omega), ?_⟩
      rw [stopAux_unfold, if_neg hlt]

/-- C1: the run stops at the first sample (checked after every RK4 step)
where the capture test `u > 1/rs` or the escape test
`u < 1/r_start ∧ u' < 0` fires — first match wins and the two tests are
mutually exclusive — and otherwise only when the angular span is exhausted;
the returned arrays are the samples up to the stopping index. -/
theorem C1_first_match_stop (b : ℝ) :
    (((∀ j, 1 ≤ j → j ≤ Nphi - 1 → ¬ term_cond b j) ∧ stop_i b = Nphi) ∨
      (∃ j, 1 ≤ j ∧ j ≤ Nphi - 1 ∧ term_cond b j ∧
        (∀ k, 1 ≤ k → k < j → ¬ term_cond b k) ∧ stop_i b = j + 1)) ∧
    (∀ y : ℝ × ℝ, capture_cond y → ¬ escape_cond y) ∧
    (integrate_ray_3d b 0 0).2.2.2 = (List.range (stop_i b)).map (rAt b) := by
  refine ⟨?_, ?_, ?_⟩
  · unfold stop_i
    have h := stopAux_char b (Nphi - 1) 0 (by omega)
    rcases h with ⟨hn, he⟩ | ⟨j, hj1, hj2, ht, hm, he⟩
    · exact Or.inl ⟨fun j h1 h2 => hn j (by omega) h2, he⟩
    · exact Or.inr ⟨j, by omega, hj2, ht,
        fun k h1 h2 => hm k (by omega) h2, he⟩
  · intro y hc he
    unfold capture_cond at hc
    unfold escape_cond at he
    have h1 : (1.0 : ℝ) / rs = 1 / 2 := by rw [rs_eq]; norm_num
    have h2 : (1.0 : ℝ) / r_start = 1 / 15 := by norm_num [r_start]
    rw [h1] at hc
    rw [h2] at he
    linarith [hc, he.1]
  · rw [integrate_components]

theorem C1_witness :
    (((∀ j, 1 ≤ j → j ≤ Nphi - 1 → ¬ term_cond 7 j) ∧ stop_i 7 = Nphi) ∨
      (∃ j, 1 ≤ j ∧ j ≤ Nphi - 1 ∧ term_cond 7 j ∧
        (∀ k, 1 ≤ k → k < j → ¬ term_cond 7 k) ∧ stop_i 7 = j + 1)) ∧
    (∀ y : ℝ × ℝ, capture_cond y → ¬ escape_cond y) ∧
    (integrate_ray_3d 7 0 0).2.2.2 = (List.range (stop_i 7)).map (rAt 7) :=
  C1_first_match_stop 7

end

/-! ## Verified fixed-point interval arithmetic

To settle the two concrete integration scenarios (capture for `b = 3`,
escape for `b = 7`) we enclose the real RK4 trajectory in integer interval
boxes: an endpoint `n : ℤ` stands for the real number `n / 2^64`, and every
operation rounds outward.  All data below is integer-valued, so the
enclosure check is a single kernel computation. -/

/-- The fixed-point scaling factor. -/
def Sc : ℤ := 2 ^ 64

/-- An interval with fixed-point endpoints `lo / Sc`, `hi / Sc`. -/
structure Iv where
  lo : ℤ
  hi : ℤ

/-- Minimum of two integers, written out for direct kernel reduction. -/
def imin (a b : ℤ) : ℤ := if a ≤ b then a else b

/-- Maximum of two integers, written out for direct kernel reduction. -/
def imax (a b : ℤ) : ℤ := if a ≤ b then b else a

/-- Rounding-down division (`Int` division is Euclidean, so this is the
floor for a positive divisor). -/
def dnDiv (n d : ℤ) : ℤ := n / d

/-- Rounding-up division for a positive divisor. -/
def upDiv (n d : ℤ) : ℤ := -(-n / d)

/-- Interval addition. -/
def Iv.add (a b : Iv) : Iv := ⟨a.lo + b.lo, a.hi + b.hi⟩

/-- Interval subtraction. -/
def Iv.sub (a b : Iv) : Iv := ⟨a.lo - b.hi, a.hi - b.lo⟩

/-- Interval scaling by 3 (exact in fixed point). -/
def Iv.triple (a : Iv) : Iv := ⟨3 * a.lo, 3 * a.hi⟩

/-- Interval scaling by 2 (exact in fixed point). -/
def Iv.double (a : Iv) : Iv := ⟨2 * a.lo, 2 * a.hi⟩

/-- Interval scaling by 1/2, rounding outward. -/
def Iv.half (a : Iv) : Iv := ⟨dnDiv a.lo 2, upDiv a.hi 2⟩

/-- Interval scaling by 1/6, rounding outward. -/
def Iv.sixth (a : Iv) : Iv := ⟨dnDiv a.lo 6, upDiv a.hi 6⟩

/-- Interval multiplication: min/max of the four endpoint products, rescaled
by `Sc` with outward rounding. -/
def Iv.mul (a b : Iv) : Iv :=
  ⟨dnDiv (imin (imin (a.lo * b.lo) (a.lo * b.hi))
      (imin (a.hi * b.lo) (a.hi * b.hi))) Sc,
   upDiv (imax (imax (a.lo * b.lo) (a.lo * b.hi))
      (imax (a.hi * b.lo) (a.hi * b.hi))) Sc⟩

/-- Interval version of `geodesic_rhs`. -/
def ivRhs (B : Iv × Iv) : Iv × Iv := (B.2, (Iv.triple (B.1.mul B.1)).sub B.1)

/-- Componentwise interval addition of state boxes. -/
def bAdd (A B : Iv × Iv) : Iv × Iv := (A.1.add B.1, A.2.add B.2)

/-- Scaling of a state box by a scalar interval. -/
def bSmul (C : Iv) (A : Iv × Iv) : Iv × Iv := (C.mul A.1, C.mul A.2)

/-- Doubling of a state box. -/
def bDouble (A : Iv × Iv) : Iv × Iv := (A.1.double, A.2.double)

/-- Interval version of one RK4 step of `geodesic_rhs` with step enclosed
by `H`. -/
def istep (H : Iv) (Y : Iv × Iv) : Iv × Iv :=
  let Hh := H.half
  let k1 := ivRhs Y
  let k2 := ivRhs (bAdd Y (bSmul Hh k1))
  let k3 := ivRhs (bAdd Y (bSmul Hh k2))
  let k4 := ivRhs (bAdd Y (bSmul H k3))
  bAdd Y (bSmul H.sixth (bAdd (bAdd (bAdd k1 (bDouble k2)) (bDouble k3)) k4))

/-- Certificate that a sample is strictly between the two stopping
thresholds: `1/15 ≤ u` and `u ≤ 1/2`, in fixed point. -/
def okMid (B : Iv × Iv) : Bool :=
  decide (Sc ≤ 15 * B.1.lo) && decide (2 * B.1.hi ≤ Sc)

/-- Certificate that the capture condition `u > 1/2` holds. -/
def capOk (B : Iv × Iv) : Bool := decide (Sc < 2 * B.1.lo)

/-- Certificate that the escape condition `u < 1/15 ∧ u' < 0` holds. -/
def escOk (B : Iv × Iv) : Bool :=
  decide (15 * B.1.hi < Sc) && decide (B.2.hi < 0)

/-- Iterated interval step with on-line certificate checking: after `j`
more steps `final` must hold, and every strictly intermediate sample must
satisfy `okMid`. -/
def checkAux (H : Iv) (final : Iv × Iv → Bool) : ℕ → Iv × Iv → Bool
  | 0, B => final B
  | j + 1, B =>
    let B2 := istep H B
    if j = 0 then final B2 else okMid B2 && checkAux H final j B2

/-- Fixed-point enclosure of the step `dphi = 6π/1999`. -/
def Hdphi : Iv := ⟨173943438713207551, 173943438713207552⟩

/-- Fixed-point enclosure of the initial state for `b = 3`:
`u0 = 1/15` and `up0 = sqrt (362/3375)`. -/
def box3 : Iv × Iv :=
  (⟨1229782938247303441, 1229782938247303442⟩,
   ⟨6041393433217813994, 6041393433217813996⟩)

/-- Fixed-point enclosure of the initial state for `b = 7`:
`u0 = 1/15` and `up0 = sqrt (2738/165375)`. -/
def box7 : Iv × Iv :=
  (⟨1229782938247303441, 1229782938247303442⟩,
   ⟨2373567112017346651, 2373567112017346653⟩)

/-! ### Soundness of the interval operations -/

/-- A real number lies in a fixed-point interval. -/
def memIv (x : ℝ) (I : Iv) : Prop :=
  (I.lo : ℝ) ≤ x * (Sc : ℝ) ∧ x * (Sc : ℝ) ≤ (I.hi : ℝ)

/-- A real state lies in a state box. -/
def memBox (s : ℝ × ℝ) (B : Iv × Iv) : Prop := memIv s.1 B.1 ∧ memIv s.2 B.2

theorem Sc_posZ : (0 : ℤ) < Sc := by norm_num [Sc]

theorem Sc_posR : (0 : ℝ) < (Sc : ℝ) := by exact_mod_cast Sc_posZ

theorem dnDiv_mul_le (n : ℤ) {d : ℤ} (hd : 0 < d) : dnDiv n d * d ≤ n := by
  unfold dnDiv
  have h1 : n % d + d * (n / d) = n := Int.emod_add_ediv n d
  have h2 : 0 ≤ n % d := Int.emod_nonneg n (ne_of_gt hd)
  nlinarith [h1, h2]

theorem le_upDiv_mul (n : ℤ) {d : ℤ} (hd : 0 < d) : n ≤ upDiv n d * d := by
  unfold upDiv
  have h := dnDiv_mul_le (-n) hd
  unfold dnDiv at h
  nlinarith [h]

theorem imin_cast (a b : ℤ) : ((imin a b : ℤ) : ℝ) = min (a : ℝ) (b : ℝ) := by
  unfold imin
  split_ifs with h
  · exact (min_eq_left (by exact_mod_cast h)).symm
  · exact (min_eq_right (by exact_mod_cast (le_of_not_le h))).symm

theorem imax_cast (a b : ℤ) : ((imax a b : ℤ) : ℝ) = max (a : ℝ) (b : ℝ) := by
  unfold imax
  split_ifs with h
  · exact (max_eq_right (by exact_mod_cast h)).symm
  · exact (max_eq_left (by exact_mod_cast (le_of_not_le h))).symm

/-- Four-corner bounds for a real product from endpoint bounds. -/
theorem mul_bounds {x y a b c d : ℝ} (h1 : a ≤ x) (h2 : x ≤ b)
    (h3 : c ≤ y) (h4 : y ≤ d) :
    min (min (a * c) (a * d)) (min (b * c) (b * d)) ≤ x * y ∧
    x * y ≤ max (max (a * c) (a * d)) (max (b * c) (b * d)) := by
  constructor
  · rcases le_total 0 y with hy | hy
    · have hax : a * y ≤ x * y := mul_le_mul_of_nonneg_right h1 hy
      rcases le_total 0 a with ha | ha
      · have hac : a * c ≤ a * y := mul_le_mul_of_nonneg_left h3 ha
        calc min (min (a * c) (a * d)) (min (b * c) (b * d))
            ≤ min (a * c) (a * d) := min_le_left _ _
          _ ≤ a * c := min_le_left _ _
          _ ≤ x * y := by linarith
      · have had : a * d ≤ a * y := mul_le_mul_of_nonpos_left h4 ha
        calc min (min (a * c) (a * d)) (min (b * c) (b * d))
            ≤ min (a * c) (a * d) := min_le_left _ _
          _ ≤ a * d := min_le_right _ _
          _ ≤ x * y := by linarith
    · have hbx : b * y ≤ x * y := mul_le_mul_of_nonpos_right h2 hy
      rcases le_total 0 b with hb | hb
      · have hbc : b * c ≤ b * y := mul_le_mul_of_nonneg_left h3 hb
        calc min (min (a * c) (a * d)) (min (b * c) (b * d))
            ≤ min (b * c) (b * d) := min_le_right _ _
          _ ≤ b * c := min_le_left _ _
          _ ≤ x * y := by linarith
      · have hbd : b * d ≤ b * y := mul_le_mul_of_nonpos_left h4 hb
        calc min (min (a * c) (a * d)) (min (b * c) (b * d))
            ≤ min (b * c) (b * d) := min_le_right _ _
          _ ≤ b * d := min_le_right _ _
          _ ≤ x * y := by linarith
  · rcases le_total 0 y with hy | hy
    · have hbx : x * y ≤ b * y := mul_le_mul_of_nonneg_right h2 hy
      rcases le_total 0 b with hb | hb
      · have hbd : b * y ≤ b * d := mul_le_mul_of_nonneg_left h4 hb
        calc x * y ≤ b * d := by linarith
          _ ≤ max (b * c) (b * d) := le_max_right _ _
          _ ≤ max (max (a * c) (a * d)) (max (b * c) (b * d)) :=
              le_max_right _ _
      · have hbc : b * y ≤ b * c := mul_le_mul_of_nonpos_left h3 hb
        calc x * y ≤ b * c := by linarith
          _ ≤ max (b * c) (b * d) := le_max_left _ _
          _ ≤ max (max (a * c) (a * d)) (max (b * c) (b * d)) :=
              le_max_right _ _
    · have hax : x * y ≤ a * y := mul_le_mul_of_nonpos_right h1 hy
      rcases le_total 0 a with ha | ha
      · have had : a * y ≤ a * d := mul_le_mul_of_nonneg_left h4 ha
        calc x * y ≤ a * d := by linarith
          _ ≤ max (a * c) (a * d) := le_max_right _ _
          _ ≤ max (max (a * c) (a * d)) (max (b * c) (b * d)) :=
              le_max_left _ _
      · have hac : a * y ≤ a * c := mul_le_mul_of_nonpos_left h3 ha
        calc x * y ≤ a * c := by linarith
          _ ≤ max (a * c) (a * d) := le_max_left _ _
          _ ≤ max (max (a * c) (a * d)) (max (b * c) (b * d)) :=
              le_max_left _ _

theorem memIv_add {x y : ℝ} {A B : Iv} (hx : memIv x A) (hy : memIv y B) :
    memIv (x + y) (A.add B) := by
  unfold memIv Iv.add at *
  push_cast
  rw [add_mul]
  exact ⟨add_le_add hx.1 hy.1, add_le_add hx.2 hy.2⟩

theorem memIv_sub {x y : ℝ} {A B : Iv} (hx : memIv x A) (hy : memIv y B) :
    memIv (x - y) (A.sub B) := by
  unfold memIv Iv.sub at *
  push_cast
  rw [sub_mul]
  exact ⟨sub_le_sub hx.1 hy.2, sub_le_sub hx.2 hy.1⟩

theorem memIv_triple {x : ℝ} {A : Iv} (hx : memIv x A) :
    memIv (3 * x) (A.triple) := by
  unfold memIv Iv.triple at *
  push_cast
  rw [mul_assoc]
  exact ⟨by linarith [hx.1], by linarith [hx.2]⟩

theorem memIv_double {x : ℝ} {A : Iv} (hx : memIv x A) :
    memIv (2 * x) (A.double) := by
  unfold memIv Iv.double at *
  push_cast
  rw [mul_assoc]
  exact ⟨by linarith [hx.1], by linarith [hx.2]⟩

theorem memIv_half {x : ℝ} {A : Iv} (hx : memIv x A) :
    memIv (x / 2) (A.half) := by
  unfold memIv Iv.half at *
  have h1 : ((dnDiv A.lo 2 : ℤ) : ℝ) * 2 ≤ (A.lo : ℝ) := by
    exact_mod_cast dnDiv_mul_le A.lo (by norm_num)
  have h2 : (A.hi : ℝ) ≤ ((upDiv A.hi 2 : ℤ) : ℝ) * 2 := by
    exact_mod_cast le_upDiv_mul A.hi (by norm_num)
  constructor
  · have := hx.1
    nlinarith
  · have := hx.2
    nlinarith

theorem memIv_sixth {x : ℝ} {A : Iv} (hx : memIv x A) :
    memIv (x / 6) (A.sixth) := by
  unfold memIv Iv.sixth at *
  have h1 : ((dnDiv A.lo 6 : ℤ) : ℝ) * 6 ≤ (A.lo : ℝ) := by
    exact_mod_cast dnDiv_mul_le A.lo (by norm_num)
  have h2 : (A.hi : ℝ) ≤ ((upDiv A.hi 6 : ℤ) : ℝ) * 6 := by
    exact_mod_cast le_upDiv_mul A.hi (by norm_num)
  constructor
  · have := hx.1
    nlinarith
  · have := hx.2
    nlinarith

theorem memIv_mul {x y : ℝ} {A B : Iv} (hx : memIv x A) (hy : memIv y B) :
    memIv (x * y) (A.mul B) := by
  obtain ⟨hx1, hx2⟩ := hx
  obtain ⟨hy1, hy2⟩ := hy
  have hb := mul_bounds hx1 hx2 hy1 hy2
  have hXY : (x * (Sc : ℝ)) * (y * (Sc : ℝ)) = (x * y * (Sc : ℝ)) * (Sc : ℝ) := by
    ring
  constructor
  · have hm : ((imin (imin (A.lo * B.lo) (A.lo * B.hi))
        (imin (A.hi * B.lo) (A.hi * B.hi)) : ℤ) : ℝ) ≤
        (x * y * (Sc : ℝ)) * (Sc : ℝ) := by
      rw [imin_cast, imin_cast, imin_cast]
      push_cast
      rw [← hXY]
      exact hb.1
    have hdn : ((dnDiv (imin (imin (A.lo * B.lo) (A.lo * B.hi))
        (imin (A.hi * B.lo) (A.hi * B.hi))) Sc : ℤ) : ℝ) * (Sc : ℝ) ≤
        ((imin (imin (A.lo * B.lo) (A.lo * B.hi))
          (imin (A.hi * B.lo) (A.hi * B.hi)) : ℤ) : ℝ) := by
      exact_mod_cast dnDiv_mul_le _ Sc_posZ
    show ((dnDiv _ Sc : ℤ) : ℝ) ≤ x * y * (Sc : ℝ)
    have := le_trans hdn hm
    exact le_of_mul_le_mul_right this Sc_posR
  · have hm : (x * y * (Sc : ℝ)) * (Sc : ℝ) ≤
        ((imax (imax (A.lo * B.lo) (A.lo * B.hi))
          (imax (A.hi * B.lo) (A.hi * B.hi)) : ℤ) : ℝ) := by
      rw [imax_cast, imax_cast, imax_cast]
      push_cast
      rw [← hXY]
      exact hb.2
    have hup : ((imax (imax (A.lo * B.lo) (A.lo * B.hi))
        (imax (A.hi * B.lo) (A.hi * B.hi)) : ℤ) : ℝ) ≤
        ((upDiv (imax (imax (A.lo * B.lo) (A.lo * B.hi))
          (imax (A.hi * B.lo) (A.hi * B.hi))) Sc : ℤ) : ℝ) * (Sc : ℝ) := by
      exact_mod_cast le_upDiv_mul _ Sc_posZ
    show x * y * (Sc : ℝ) ≤ ((upDiv _ Sc : ℤ) : ℝ)
    have := le_trans hm hup
    exact le_of_mul_le_mul_right this Sc_posR

theorem bAdd_sound {s t : ℝ × ℝ} {A B : Iv × Iv} (hs : memBox s A)
    (ht : memBox t B) : memBox (s + t) (bAdd A B) :=
  ⟨memIv_add hs.1 ht.1, memIv_add hs.2 ht.2⟩

theorem bSmul_sound {c : ℝ} {t : ℝ × ℝ} {C : Iv} {A : Iv × Iv}
    (hc : memIv c C) (ht : memBox t A) : memBox (c • t) (bSmul C A) :=
  ⟨memIv_mul hc ht.1, memIv_mul hc ht.2⟩

theorem bDouble_sound {t : ℝ × ℝ} {A : Iv × Iv} (ht : memBox t A) :
    memBox ((2 : ℝ) • t) (bDouble A) :=
  ⟨memIv_double ht.1, memIv_double ht.2⟩

theorem ivRhs_sound (phi : ℝ) {s : ℝ × ℝ} {B : Iv × Iv} (hs : memBox s B) :
    memBox (geodesic_rhs phi s) (ivRhs B) := by
  refine ⟨hs.2, ?_⟩
  show memIv (3.0 * M * s.1 ^ 2 - s.1) ((Iv.triple (B.1.mul B.1)).sub B.1)
  have e : 3.0 * M * s.1 ^ 2 - s.1 = 3 * (s.1 * s.1) - s.1 := by
    norm_num [M]
    ring
  rw [e]
  exact memIv_sub (memIv_triple (memIv_mul hs.1 hs.1)) hs.1

/-- One real RK4 step of the geodesic equation stays inside the interval
step, whenever the real step size lies in `H`. -/
theorem istep_sound {h : ℝ} {H : Iv} {s : ℝ × ℝ} {B : Iv × Iv} (phi : ℝ)
    (hH : memIv h H) (hs : memBox s B) :
    memBox (rk4_step geodesic_rhs phi s h) (istep H B) := by
  have hh2 : memIv (0.5 * h) H.half := by
    have e : (0.5 : ℝ) * h = h / 2 := by ring
    rw [e]
    exact memIv_half hH
  have hh6 : memIv (h / 6.0) H.sixth := by
    have e : h / (6.0 : ℝ) = h / 6 := by norm_num
    rw [e]
    exact memIv_sixth hH
  have hk1 := ivRhs_sound phi hs
  have hy2 := bAdd_sound hs (bSmul_sound hh2 hk1)
  have hk2 := ivRhs_sound (phi + 0.5 * h) hy2
  have hy3 := bAdd_sound hs (bSmul_sound hh2 hk2)
  have hk3 := ivRhs_sound (phi + 0.5 * h) hy3
  have hy4 := bAdd_sound hs (bSmul_sound hH hk3)
  have hk4 := ivRhs_sound (phi + h) hy4
  show memBox (s + (h / 6.0) •
      (geodesic_rhs phi s
        + (2 : ℝ) • geodesic_rhs (phi + 0.5 * h)
            (s + (0.5 * h) • geodesic_rhs phi s)
        + (2 : ℝ) • geodesic_rhs (phi + 0.5 * h)
            (s + (0.5 * h) • geodesic_rhs (phi + 0.5 * h)
              (s + (0.5 * h) • geodesic_rhs phi s))
        + geodesic_rhs (phi + h)
            (s + h • geodesic_rhs (phi + 0.5 * h)
              (s + (0.5 * h) • geodesic_rhs (phi + 0.5 * h)
                (s + (0.5 * h) • geodesic_rhs phi s)))))
    (istep H B)
  have hsum := bAdd_sound (bAdd_sound (bAdd_sound hk1 (bDouble_sound hk2))
    (bDouble_sound hk3)) hk4
  exact bAdd_sound hs (bSmul_sound hh6 hsum)

/-! ### From interval certificates to statements about the real run -/

/-- A sample strictly between the stopping thresholds. -/
def midOK (s : ℝ × ℝ) : Prop := (1 / 15 : ℝ) ≤ s.1 ∧ s.1 ≤ 1 / 2

theorem dphi_eq : dphi = 6 * Real.pi / 1999 := by
  unfold dphi phi_grid phi_span
  norm_num [Nphi]

theorem okMid_sound {s : ℝ × ℝ} {B : Iv × Iv} (hok : okMid B = true)
    (hs : memBox s B) : midOK s := by
  unfold okMid at hok
  rw [Bool.and_eq_true, decide_eq_true_eq, decide_eq_true_eq] at hok
  have c1 : ((Sc : ℤ) : ℝ) ≤ 15 * ((B.1.lo : ℤ) : ℝ) := by exact_mod_cast hok.1
  have c2 : 2 * ((B.1.hi : ℤ) : ℝ) ≤ ((Sc : ℤ) : ℝ) := by exact_mod_cast hok.2
  have hm1 := hs.1.1
  have hm2 := hs.1.2
  constructor
  · refine (mul_le_mul_right Sc_posR).mp ?_
    linarith
  · refine (mul_le_mul_right Sc_posR).mp ?_
    linarith

theorem capOk_sound {s : ℝ × ℝ} {B : Iv × Iv} (hok : capOk B = true)
    (hs : memBox s B) : capture_cond s := by
  unfold capOk at hok
  rw [decide_eq_true_eq] at hok
  have c1 : ((Sc : ℤ) : ℝ) < 2 * ((B.1.lo : ℤ) : ℝ) := by exact_mod_cast hok
  have hm1 := hs.1.1
  show 1.0 / rs < s.1
  rw [show (1.0 : ℝ) / rs = 1 / 2 by rw [rs_eq]; norm_num]
  refine (mul_lt_mul_right Sc_posR).mp ?_
  linarith

theorem escOk_sound {s : ℝ × ℝ} {B : Iv × Iv} (hok : escOk B = true)
    (hs : memBox s B) : escape_cond s := by
  unfold escOk at hok
  rw [Bool.and_eq_true, decide_eq_true_eq, decide_eq_true_eq] at hok
  have c1 : 15 * ((B.1.hi : ℤ) : ℝ) < ((Sc : ℤ) : ℝ) := by exact_mod_cast hok.1
  have c2 : ((B.2.hi : ℤ) : ℝ) < 0 := by exact_mod_cast hok.2
  have hm1 := hs.1.2
  have hm2 := hs.2.2
  constructor
  · show s.1 < 1.0 / r_start
    rw [show (1.0 : ℝ) / r_start = 1 / 15 by norm_num [r_start]]
    refine (mul_lt_mul_right Sc_posR).mp ?_
    linarith
  · show s.2 < 0
    refine (mul_lt_mul_right Sc_posR).mp ?_
    rw [zero_mul]
    linarith

theorem midOK_no_term {s : ℝ × ℝ} (h : midOK s) :
    ¬ (capture_cond s ∨ escape_cond s) := by
  rintro (hc | he)
  · unfold capture_cond at hc
    rw [show (1.0 : ℝ) / rs = 1 / 2 by rw [rs_eq]; norm_num] at hc
    linarith [h.2]
  · have he1 := he.1
    rw [show (1.0 : ℝ) / r_start = 1 / 15 by norm_num [r_start]] at he1
    linarith [h.1]

/-- Soundness of the iterated certificate: if the interval run from a box
containing sample `i` passes, then the final property holds at sample
`i + j` and every strictly intermediate sample is between the thresholds. -/
theorem checkAux_sound (b : ℝ) {H : Iv} (hH : memIv dphi H)
    (final : Iv × Iv → Bool) (P : ℝ × ℝ → Prop)
    (hfin : ∀ (s : ℝ × ℝ) (B : Iv × Iv), memBox s B → final B = true → P s) :
    ∀ (j i : ℕ) (B : Iv × Iv), memBox (traj b i) B →
      checkAux H final j B = true →
      P (traj b (i + j)) ∧ ∀ k, i < k → k < i + j → midOK (traj b k) := by
  intro j
  induction j with
  | zero =>
    intro i B hmem hchk
    refine ⟨?_, fun k h1 h2 => absurd h1 (by omega)⟩
    rw [Nat.add_zero]
    exact hfin _ _ hmem hchk
  | succ j ih =>
    intro i B hmem hchk
    have hstep : memBox (traj b (i + 1)) (istep H B) := by
      have e : traj b (i + 1) =
          rk4_step geodesic_rhs (phi_grid i) (traj b i) dphi := rfl
      rw [e]
      exact istep_sound (phi_grid i) hH hmem
    by_cases hj : j = 0
    · subst hj
      have e : checkAux H final 1 B = final (istep H B) := rfl
      rw [e] at hchk
      refine ⟨?_, fun k h1 h2 => absurd h1 (by omega)⟩
      exact hfin _ _ hstep hchk
    · have e : checkAux H final (j + 1) B =
          (if j = 0 then final (istep H B)
           else okMid (istep H B) && checkAux H final j (istep H B)) := rfl
      rw [e, if_neg hj, Bool.and_eq_true] at hchk
      obtain ⟨hok, hrest⟩ := hchk
      have hmid := okMid_sound hok hstep
      obtain ⟨hP, hmids⟩ := ih (i + 1) (istep H B) hstep hrest
      constructor
      · have e2 : i + 1 + j = i + (j + 1) := by omega
        rwa [e2] at hP
      · intro k h1 h2
        rcases Nat.lt_or_ge (i + 1) k with h3 | h3
        · exact hmids k h3 (by omega)
        · have hk : k = i + 1 := by omega
          rw [hk]
          exact hmid

/-! ### Concrete enclosures -/

theorem Hdphi_mem : memIv dphi Hdphi := by
  rw [dphi_eq]
  unfold memIv Hdphi Sc
  have hgt : (3.14159265358979323846 : ℝ) < Real.pi := Real.pi_gt_d20
  have hlt : Real.pi < (3.14159265358979323847 : ℝ) := Real.pi_lt_d20
  constructor
  · push_cast
    have hr : (173943438713207551 : ℝ) ≤
        6 * (3.14159265358979323846 : ℝ) / 1999 * 2 ^ 64 := by norm_num
    nlinarith [hgt]
  · push_cast
    have hr : 6 * (3.14159265358979323847 : ℝ) / 1999 * 2 ^ 64 ≤
        (173943438713207552 : ℝ) := by norm_num
    nlinarith [hlt]

theorem initVal_three : initVal 3 = 362 / 3375 := by
  unfold initVal u0 r_start M
  norm_num

theorem initVal_seven : initVal 7 = 2738 / 165375 := by
  unfold initVal u0 r_start M
  norm_num

theorem up0_three : up0 3 = Real.sqrt (362 / 3375) := by
  unfold up0
  rw [initVal_three, if_neg (by norm_num)]

theorem up0_seven : up0 7 = Real.sqrt (2738 / 165375) := by
  unfold up0
  rw [initVal_seven, if_neg (by norm_num)]

theorem u0_memIv : memIv u0 ⟨1229782938247303441, 1229782938247303442⟩ := by
  unfold memIv u0 r_start Sc
  constructor
  · push_cast
    norm_num
  · push_cast
    norm_num

theorem box3_mem : memBox (traj 3 0) box3 := by
  refine ⟨u0_memIv, ?_⟩
  show memIv (up0 3) box3.2
  rw [up0_three]
  unfold memIv box3 Sc
  constructor
  · have h1 : (6041393433217813994 : ℝ) / 2 ^ 64 ≤ Real.sqrt (362 / 3375) :=
      Real.le_sqrt_of_sq_le (by norm_num)
    rw [div_le_iff₀ (by positivity)] at h1
    push_cast
    linarith
  · have h2 : Real.sqrt (362 / 3375) ≤ (6041393433217813996 : ℝ) / 2 ^ 64 := by
      rw [Real.sqrt_le_left (by positivity)]
      norm_num
    rw [le_div_iff₀ (by positivity)] at h2
    push_cast
    linarith

theorem box7_mem : memBox (traj 7 0) box7 := by
  refine ⟨u0_memIv, ?_⟩
  show memIv (up0 7) box7.2
  rw [up0_seven]
  unfold memIv box7 Sc
  constructor
  · have h1 : (2373567112017346651 : ℝ) / 2 ^ 64 ≤
        Real.sqrt (2738 / 165375) :=
      Real.le_sqrt_of_sq_le (by norm_num)
    rw [div_le_iff₀ (by positivity)] at h1
    push_cast
    linarith
  · have h2 : Real.sqrt (2738 / 165375) ≤
        (2373567112017346653 : ℝ) / 2 ^ 64 := by
      rw [Real.sqrt_le_left (by positivity)]
      norm_num
    rw [le_div_iff₀ (by positivity)] at h2
    push_cast
    linarith

set_option maxRecDepth 1000000 in
theorem chk3 : checkAux Hdphi capOk 157 box3 = true := by decide

set_option maxRecDepth 1000000 in
theorem chk7 : checkAux Hdphi escOk 351 box7 = true := by decide

/-- The stopping index equals the first terminal sample plus one. -/
theorem stop_i_eq_of_first {b : ℝ} {j : ℕ} (h1 : 1 ≤ j) (h2 : j ≤ Nphi - 1)
    (hterm : term_cond b j) (hpre : ∀ k, 1 ≤ k → k < j → ¬ term_cond b k) :
    stop_i b = j + 1 := by
  unfold stop_i
  rcases stopAux_char b (Nphi - 1) 0 (by omega) with ⟨hn, _⟩ |
    ⟨jm, hj1, hj2, ht, hmin, heq⟩
  · exact absurd hterm (hn j (by omega) h2)
  · have hjm : jm = j := by
      by_contra hne
      rcases Nat.lt_or_ge jm j with hlt | hge
      · exact hpre jm (by omega) hlt ht
      · exact hmin j (by omega) (by omega) hterm
    rw [heq, hjm]

/-- C2: with M = 1, rs = 2, r_start = 15 and the fixed 6π span of 2000 grid
points, the run for `b = 3` reaches the capture condition `u > 1/rs` at
sample 157 with no earlier terminal condition (so the loop stops there,
before the span is exhausted), and the run for `b = 7` reaches the escape
condition `u < 1/15 ∧ u' < 0` at sample 351 with no earlier terminal
condition, again before the span is exhausted. -/
theorem C2_capture_escape_scenarios :
    (capture_cond (traj 3 157) ∧
      (∀ k, 1 ≤ k → k < 157 → ¬ term_cond 3 k) ∧
      stop_i 3 = 158 ∧ stop_i 3 < Nphi) ∧
    (escape_cond (traj 7 351) ∧
      (∀ k, 1 ≤ k → k < 351 → ¬ term_cond 7 k) ∧
      stop_i 7 = 352 ∧ stop_i 7 < Nphi) := by
  have h3 := checkAux_sound 3 Hdphi_mem capOk capture_cond
    (fun s B hs hok => capOk_sound hok hs) 157 0 box3 box3_mem chk3
  have h7 := checkAux_sound 7 Hdphi_mem escOk escape_cond
    (fun s B hs hok => escOk_sound hok hs) 351 0 box7 box7_mem chk7
  have hcap : capture_cond (traj 3 157) := by
    have := h3.1
    simpa using this
  have hpre3 : ∀ k, 1 ≤ k → k < 157 → ¬ term_cond 3 k := by
    intro k hk1 hk2
    have hmid := h3.2 k (by omega) (by omega)
    exact midOK_no_term hmid
  have hesc : escape_cond (traj 7 351) := by
    have := h7.1
    simpa using this
  have hpre7 : ∀ k, 1 ≤ k → k < 351 → ¬ term_cond 7 k := by
    intro k hk1 hk2
    have hmid := h7.2 k (by omega) (by omega)
    exact midOK_no_term hmid
  have hstop3 : stop_i 3 = 158 :=
    stop_i_eq_of_first (by norm_num) (by norm_num [Nphi]) (Or.inl hcap) hpre3
  have hstop7 : stop_i 7 = 352 :=
    stop_i_eq_of_first (by norm_num) (by norm_num [Nphi]) (Or.inr hesc) hpre7
  exact ⟨⟨hcap, hpre3, hstop3, by rw [hstop3]; norm_num [Nphi]⟩,
    ⟨hesc, hpre7, hstop7, by rw [hstop7]; norm_num [Nphi]⟩⟩

end PhotonSphere
